import Mathlib

/-!
Verification of the beacon-cache-proxy caching layer.

This file gives a shallow embedding, in Lean, of the cache package
(`diskCache` with its LRU warm accelerator), the warming loop
(`tickler.tickle`), and the router callbacks (`cachedQuery`,
`onCachingProxyResponse`) of the beacon-cache-proxy repository, and proves
or refutes the specification claims about them.

Modelling conventions:
- Byte slices are `List Nat`.
- The cache directory is a finite map from file name to contents,
  represented as an association list (`FS`).  The constant data-directory
  prefix of every path is elided: file names are relative to the cache
  directory, so `diskCache.fileName` becomes `key ++ ".pb"`.
- The protobuf library (`protojson.Unmarshal`, `proto.Marshal`,
  `proto.Unmarshal`, `protoJsonOpts.Marshal`) is external to the
  repository; it is modelled by an abstract `Codec` record over an opaque
  message type, with `Option` results standing for the Go error returns.
- Filesystem faults (stat / open / read errors on an existing file) are
  modelled by an oracle `bad : String → Bool` marking files whose reads
  fail.  Reading an open handle (`io.ReadAll`) is folded into the same
  oracle: a file is either readable or not.
- Go `uint64` values are `Nat` with explicit `% 2^64` where the source can
  wrap, and `strconv.ParseUint(s, 10, 64)` is `parseUint64`, which rejects
  the empty string, non-digit characters and values `≥ 2^64`.
- `fmt.Sprint` on a `uint64` is Lean's decimal printer `Nat.repr`.
- The only header the cache ever constructs is `Content-Type`, so
  `http.Header` values produced by `Get` are modelled by that single
  string; the request header is modelled by the value of
  `header.Get "Accept"`.
-/

/-- Byte strings (Go `[]byte`), as lists of byte values. -/
abbrev Bytes := List Nat

/-- The cache directory: an association list from file name to contents. -/
abbrev FS := List (String × Bytes)

/-- Look up a file's contents by name. -/
def lookupFile (fs : FS) (n : String) : Option Bytes :=
  (fs.find? (fun p => p.1 == n)).map Prod.snd

/-- Create or truncate a file (Go `os.Create` / writing): the directory maps
`n` to `b` and is otherwise unchanged. -/
def insertFile (fs : FS) (n : String) (b : Bytes) : FS :=
  (n, b) :: fs.filter (fun p => p.1 != n)

/-- Delete a file (Go `os.Remove`); removing an absent file is a no-op, as
the callers in the source ignore the `os.Remove` error. -/
def removeFile (fs : FS) (n : String) : FS :=
  fs.filter (fun p => p.1 != n)

/-- Abstract model of the protobuf serialization library over an opaque
message type `M` (Go `pb.CommitteesResponse`).  Each field models one
library call used by the source; `none` stands for a returned error. -/
structure Codec (M : Type) where
  jsonUnmarshal : Bytes → Option M
  pbMarshal : M → Option Bytes
  pbUnmarshal : Bytes → Option M
  jsonMarshal : M → Option Bytes

/-- A codec over the trivial message type for which every library call
fails; used to drive the failure paths on concrete inputs. -/
def codecNone : Codec Unit :=
  { jsonUnmarshal := fun _ => none
    pbMarshal := fun _ => none
    pbUnmarshal := fun _ => none
    jsonMarshal := fun _ => none }

/-- A codec over the trivial message type for which every library call
succeeds with fixed results; used to drive the success paths on concrete
inputs. -/
def codecJson : Codec Unit :=
  { jsonUnmarshal := fun _ => some ()
    pbMarshal := fun _ => some []
    pbUnmarshal := fun _ => some ()
    jsonMarshal := fun _ => some [1] }

/-- A codec over the trivial message type that decodes protobuf but fails to
re-encode JSON; drives the marshal-failure path on concrete inputs. -/
def codecNoJson : Codec Unit :=
  { jsonUnmarshal := fun _ => some ()
    pbMarshal := fun _ => some []
    pbUnmarshal := fun _ => some ()
    jsonMarshal := fun _ => none }

/-- `diskCache.fileName`: `d.path + "/" + key + ".pb"`, with the constant
directory prefix elided. -/
def diskCache.fileName (key : String) : String := key ++ ".pb"

/-- Numeric value of a decimal digit character. -/
def digitVal (c : Char) : Nat := c.toNat - 48

/-- Accumulating decimal parser over a character list; fails on the first
non-digit. -/
def parseDigits : Nat → List Char → Option Nat
  | acc, [] => some acc
  | acc, c :: cs => if c.isDigit then parseDigits (acc * 10 + digitVal c) cs else none

/-- `strconv.ParseUint(s, 10, 64)`: decimal digits only, nonempty, value
below `2^64`. -/
def parseUint64 (s : String) : Option Nat :=
  if s.data.isEmpty then none
  else
    match parseDigits 0 s.data with
    | none => none
    | some n => if n < 18446744073709551616 then some n else none

/-- `strings.EqualFold` restricted to the ASCII strings the source compares
(`Accept` values): case-insensitive equality via lowercasing. -/
def eqFold (a b : String) : Bool :=
  a.data.map Char.toLower == b.data.map Char.toLower

/-- The warm accelerator (`lru.Cache[string, []byte]` of capacity 256):
entries most-recently-added first. -/
abbrev LRU := List (String × Bytes)

/-- `lru.Cache.Peek`: non-mutating lookup. -/
def lruPeek (c : LRU) (k : String) : Option Bytes :=
  (c.find? (fun p => p.1 == k)).map Prod.snd

/-- `lru.Cache.Add` with capacity 256: insert at the front (replacing any
entry with the same key) and evict the least recently used entry when the
capacity is exceeded. -/
def lruAdd (c : LRU) (k : String) (v : Bytes) : LRU :=
  if ((k, v) :: c.filter (fun p => p.1 != k)).length > 256 then
    ((k, v) :: c.filter (fun p => p.1 != k)).dropLast
  else (k, v) :: c.filter (fun p => p.1 != k)

/-- `diskCache.Peek`: whether the record's file exists. -/
def diskCache.Peek (fs : FS) (key : String) : Bool :=
  (lookupFile fs (diskCache.fileName key)).isSome

/-- `diskCache.warmingRead` with `cacheOnly = true`: populate-only read. If
the warm accelerator already holds the file, or the file is missing or
unreadable, the accelerator is unchanged; otherwise the file's bytes are
added to it.  This branch of the source returns before the look-ahead
`defer` is installed, so it never recurses. -/
def warmCacheOnly (bad : String → Bool) (fs : FS) (c : LRU) (key : String) : LRU :=
  let fn := diskCache.fileName key
  if (lruPeek c fn).isSome then c
  else
    match lookupFile fs fn with
    | none => c
    | some data => if bad fn then c else lruAdd c fn data

/-- The keys probed by the look-ahead `defer` in `diskCache.warmingRead`:
`fmt.Sprint i` for `i` from `start+1` to `start+32`, with `uint64`
wraparound. -/
def lookAheadKeys (start : Nat) : List String :=
  (List.range 32).map (fun j => Nat.repr ((start + j + 1) % 18446744073709551616))

/-- The look-ahead `defer` of `diskCache.warmingRead`: if the key parses as
a `uint64`, populate-only reads of the next 32 consecutive keys. -/
def lookAhead (bad : String → Bool) (fs : FS) (c : LRU) (key : String) : LRU :=
  match parseUint64 key with
  | none => c
  | some start => (lookAheadKeys start).foldl (fun acc k => warmCacheOnly bad fs acc k) c

/-- Result of `diskCache.warmingRead` with `cacheOnly = false`: the record's
bytes, absence, or a filesystem error. -/
inductive WarmResult where
  | ok (data : Bytes)
  | missing
  | err (msg : String)
deriving DecidableEq

/-- `diskCache.warmingRead` with `cacheOnly = false`: serve from the warm
accelerator if possible (no look-ahead); otherwise read the file from disk
and, on success, run the look-ahead over the next 32 keys. -/
def diskCache.warmingRead (bad : String → Bool) (fs : FS) (c : LRU) (key : String) :
    WarmResult × LRU :=
  let fn := diskCache.fileName key
  match lruPeek c fn with
  | some cached => (.ok cached, c)
  | none =>
    match lookupFile fs fn with
    | none => (.missing, c)
    | some data =>
      if bad fn then (.err ("open " ++ fn), c)
      else (.ok data, lookAhead bad fs c key)

/-- Result of `diskCache.Get`: `(bytes, headers, nil)`, `(nil, nil, nil)` or
`(nil, nil, err)` in the source; headers carry only `Content-Type`. -/
inductive GetResult where
  | found (body : Bytes) (contentType : String)
  | absent
  | error (msg : String)
deriving DecidableEq

/-- `diskCache.Get`: read via `warmingRead`; on a filesystem error delete
the file and surface the error; on absence report absence; otherwise, if the
request explicitly accepts `application/protobuf`, return the raw stored
bytes, else decode the protobuf and re-encode it as JSON, deleting the file
and surfacing an error when either conversion step fails. -/
def diskCache.Get {M : Type} (codec : Codec M) (bad : String → Bool) (fs : FS) (c : LRU)
    (accept key : String) : GetResult × FS × LRU :=
  let fn := diskCache.fileName key
  match diskCache.warmingRead bad fs c key with
  | (.err e, c2) => (.error e, removeFile fs fn, c2)
  | (.missing, c2) => (.absent, fs, c2)
  | (.ok pbData, c2) =>
    if eqFold accept "application/protobuf" then
      (.found pbData "application/protobuf", fs, c2)
    else
      match codec.pbUnmarshal pbData with
      | none =>
        (.error ("Error parsing protobuf from cached file " ++ fn), removeFile fs fn, c2)
      | some m =>
        match codec.jsonMarshal m with
        | none =>
          (.error ("Error marshaling json from cached file " ++ fn), removeFile fs fn, c2)
        | some out => (.found out "application/json", fs, c2)

/-- `diskCache.Set`: fail if the file already exists; otherwise `os.Create`
the (empty) file, convert the JSON input to protobuf, and write the result.
A conversion failure returns an error after the empty file was created. -/
def diskCache.Set {M : Type} (codec : Codec M) (fs : FS) (key : String) (value : Bytes) :
    FS × Except String Unit :=
  let fn := diskCache.fileName key
  if (lookupFile fs fn).isSome then
    (fs, .error ("error while checking for file " ++ fn))
  else
    let fs1 := insertFile fs fn []
    match codec.jsonUnmarshal value with
    | none => (fs1, .error ("error converting json to protobuf for file " ++ fn))
    | some m =>
      match codec.pbMarshal m with
      | none => (fs1, .error ("error marshalling protobuf for file " ++ fn))
      | some bytes => (insertFile fs1 fn bytes, .ok ())

/-- Whether an `Except` result is a success. -/
def exceptIsOk : Except String Unit → Bool
  | .ok _ => true
  | .error _ => false

/-- Lexicographic comparison of character lists; on the ASCII file names the
store produces this agrees with Go's byte-wise string order. -/
def charListLe : List Char → List Char → Bool
  | [], _ => true
  | _ :: _, [] => false
  | a :: as, b :: bs => if a < b then true else if b < a then false else charListLe as bs

/-- Lexicographic string order (the order `sort.Strings` sorts by). -/
def strLe (a b : String) : Bool := charListLe a.data b.data

/-- Insert a string into a lexicographically sorted list. -/
def insertSorted (x : String) : List String → List String
  | [] => [x]
  | y :: ys => if strLe x y then x :: y :: ys else y :: insertSorted x ys

/-- `sort.Strings`: lexicographic sort of the directory entry names
(insertion sort; extensionally the sort the source performs). -/
def sortStrings (l : List String) : List String := l.foldr insertSorted []

/-- `diskCache.Prune n`: list the directory; if at most `n` entries exist do
nothing; otherwise sort the names and delete the slice
`fileNames[:len(fileNames)-n+1]`.  For `n = 0` that slice bound exceeds the
slice length and the source panics. -/
def diskCache.Prune (fs : FS) (n : Nat) : FS × Except String Nat :=
  let m := fs.length
  if m ≤ n then (fs, .ok 0)
  else if m - n + 1 > m then
    (fs, .error "panic: slice bounds out of range")
  else
    let sorted := sortStrings (fs.map Prod.fst)
    let toDelete := sorted.take (m - n + 1)
    (toDelete.foldl removeFile fs, .ok toDelete.length)

/-- Input of one warming tick (`tickler.tickle`): the upstream's
finality-checkpoints response (status and the string-valued
`data.finalized.epoch` field as produced by `json.Unmarshal`, which leaves
the field empty when the body is malformed) and the committees response the
tick would receive for that epoch. -/
structure TickInput where
  finalityStatus : Nat
  finalityEpoch : String
  committeesStatus : Nat
  committeesBody : Bytes
deriving DecidableEq

/-- Process-local state touched by a tick: the last-seen finalized epoch
(`tickler.lastEpoch`) and the cache directory written through `Set`. -/
structure TicklerState where
  lastEpoch : Nat
  fs : FS
deriving DecidableEq

/-- `tickler.tickle`: abandon the tick on a non-200 finality response, an
unparsable epoch, an epoch not strictly greater than `lastEpoch`, an
already-cached epoch, a non-200 committees response, or an empty body;
otherwise call `Set` (its error is discarded by the source) and set
`lastEpoch` to the parsed epoch.  The second component records whether `Set`
was called, and with which result. -/
def tickle {M : Type} (codec : Codec M) (st : TicklerState) (inp : TickInput) :
    TicklerState × Option (Except String Unit) :=
  if inp.finalityStatus ≠ 200 then (st, none)
  else
    match parseUint64 inp.finalityEpoch with
    | none => (st, none)
    | some epoch =>
      if epoch ≤ st.lastEpoch then (st, none)
      else if diskCache.Peek st.fs inp.finalityEpoch then (st, none)
      else if inp.committeesStatus ≠ 200 then (st, none)
      else if inp.committeesBody.length = 0 then (st, none)
      else
        let r := diskCache.Set codec st.fs inp.finalityEpoch inp.committeesBody
        ({ lastEpoch := epoch, fs := r.1 }, some r.2)

/-- The asynchronous cache-population step of `onCachingProxyResponse` in
`main.go`: given the route's `epoch` variable (if any) and the captured
response body, call `Set` exactly when the variable is present and numeric.
The body itself is never examined.  The second component records whether
`Set` was called. -/
def onCachingProxyResponse {M : Type} (codec : Codec M) (fs : FS)
    (epochVar : Option String) (body : Bytes) : FS × Bool :=
  match epochVar with
  | none => (fs, false)
  | some e =>
    match parseUint64 e with
    | none => (fs, false)
    | some _ => ((diskCache.Set codec fs e body).1, true)

/-- Outcome of the `c.Get` call made by `cachedQuery`, as the handler
observes it: an internal error, an absent result (`cached == nil`), or a
present result with body and `Content-Type`. -/
inductive CacheOutcome where
  | err (msg : String)
  | absent
  | present (body : Bytes) (contentType : String)
deriving DecidableEq

/-- What `cachedQuery` does with a request: serve the cached body and
headers with status 200, or delegate to the capturing reverse proxy. -/
inductive RouteResponse where
  | hit (body : Bytes) (contentType : String)
  | pass
deriving DecidableEq

/-- `cachedQuery` in `main.go`: pass through when the `epoch` route variable
is absent or non-numeric, when the cache `Get` errors, or when it reports
absence; short-circuit with the cached response only on a present result.
The cache is abstracted by the oracle `g` for `c.Get`. -/
def cachedQuery (epochVar : Option String) (g : String → CacheOutcome) : RouteResponse :=
  match epochVar with
  | none => .pass
  | some e =>
    match parseUint64 e with
    | none => .pass
    | some _ =>
      match g e with
      | .err _ => .pass
      | .absent => .pass
      | .present b ct => .hit b ct

/-- C1: the claim states that `Prune(n)` on `m > n` records deletes exactly
`m - n` files, leaves `n`, and returns `m - n`; in particular with records
for epochs 10, 11, 12 and `n = 2` exactly one file is deleted and two
remain.  The code instead slices `fileNames[:len(fileNames)-n+1]`, deleting
`m - n + 1` files: on that very scenario it deletes the two
lexicographically-first files, leaves one, and returns 2, contradicting the
claim and the source's own comment ("grab the len()-n oldest"). -/
theorem prune_scenario_deletes_two :
    diskCache.Prune [("10.pb", []), ("11.pb", []), ("12.pb", [])] 2 =
      ([("12.pb", [])], Except.ok 2) := rfl

/-- C2: write-once invariant.  If a record for `key` already exists, `Set`
returns an error, the directory is unchanged, and the persisted bytes for
`key` are untouched. -/
theorem set_write_once {M : Type} (codec : Codec M) (fs : FS) (key : String) (w b : Bytes)
    (h : lookupFile fs (diskCache.fileName key) = some b) :
    (diskCache.Set codec fs key w).1 = fs ∧ exceptIsOk (diskCache.Set codec fs key w).2 = false ∧
      lookupFile (diskCache.Set codec fs key w).1 (diskCache.fileName key) = some b := by
  unfold diskCache.Set
  simp [h, exceptIsOk]

/-- Witness for `set_write_once` at a concrete store. -/
theorem set_write_once_witness :
    (diskCache.Set codecNone [("5.pb", [7])] "5" [1]).1 = [("5.pb", [7])] ∧
      exceptIsOk (diskCache.Set codecNone [("5.pb", [7])] "5" [1]).2 = false ∧
      lookupFile (diskCache.Set codecNone [("5.pb", [7])] "5" [1]).1 (diskCache.fileName "5") = some [7] :=
  set_write_once codecNone [("5.pb", [7])] "5" [1] [7] (by decide)

/-- C3 counterexample: `Set` on a fresh key whose JSON conversion fails does
NOT leave the store unchanged — `os.Create` runs before the conversion, so
an empty file for the key remains and `Peek` reports the key present. -/
theorem set_conv_failure_mutates_store :
    (diskCache.Set codecNone [] "5" [1]).1 = [("5.pb", [])] ∧
      exceptIsOk (diskCache.Set codecNone [] "5" [1]).2 = false ∧
      diskCache.Peek (diskCache.Set codecNone [] "5" [1]).1 "5" = true := by decide

/-- C3 amended: on a fresh key with failing conversion, `Set` returns an
error but creates exactly one new zero-byte file for the key (the rest of
the store is untouched). -/
theorem set_conv_failure_creates_empty_file {M : Type} (codec : Codec M) (fs : FS)
    (key : String) (v : Bytes)
    (h0 : lookupFile fs (diskCache.fileName key) = none) (h1 : codec.jsonUnmarshal v = none) :
    diskCache.Set codec fs key v =
      (insertFile fs (diskCache.fileName key) [],
        Except.error ("error converting json to protobuf for file " ++ diskCache.fileName key)) := by
  unfold diskCache.Set
  simp [h0, h1]

/-- Witness for `set_conv_failure_creates_empty_file` at a concrete store. -/
theorem set_conv_failure_creates_empty_file_witness :
    diskCache.Set codecNone [] "5" [1] =
      (insertFile [] (diskCache.fileName "5") [],
        Except.error ("error converting json to protobuf for file " ++ diskCache.fileName "5")) :=
  set_conv_failure_creates_empty_file codecNone [] "5" [1] (by decide) rfl

/-- C4 counterexample: the router's asynchronous response-capturing path
hands an empty body to `Set` (the body is never examined), and a zero-byte
record for the epoch is left behind. -/
theorem router_caches_empty_body :
    (onCachingProxyResponse codecNone [] (some "7") []).2 = true ∧
      (onCachingProxyResponse codecNone [] (some "7") []).1 = [("7.pb", [])] := by decide

/-- C4 amended: only the warming loop rejects empty bodies — a tick whose
committees response has an empty body abandons without calling `Set` and
leaves all state unchanged; the router's asynchronous path hands the body to
`Set` whenever the epoch variable is present and numeric, regardless of the
body being empty. -/
theorem zero_byte_rejection_amended {M : Type} (codec : Codec M) (st : TicklerState)
    (inp : TickInput) (fs : FS) (e : String) (body : Bytes) :
    (inp.committeesBody = [] → tickle codec st inp = (st, none)) ∧
      ((parseUint64 e).isSome = true → (onCachingProxyResponse codec fs (some e) body).2 = true) := by
  constructor
  · intro h
    unfold tickle
    split
    · rfl
    · split
      · rfl
      · split
        · rfl
        · split
          · rfl
          · split
            · rfl
            · split
              · rfl
              · simp [h] at *
  · intro h
    cases hp : parseUint64 e with
    | none => rw [hp] at h; simp at h
    | some k => simp [onCachingProxyResponse, hp]

/-- Witness for `zero_byte_rejection_amended` at concrete inputs. -/
theorem zero_byte_rejection_amended_witness :
    tickle codecNone ⟨0, []⟩ ⟨200, "5", 200, []⟩ = (⟨0, []⟩, none) ∧
      (onCachingProxyResponse codecNone [] (some "7") [1]).2 = true :=
  ⟨(zero_byte_rejection_amended codecNone ⟨0, []⟩ ⟨200, "5", 200, []⟩ [] "7" [1]).1 rfl,
    (zero_byte_rejection_amended codecNone ⟨0, []⟩ ⟨200, "5", 200, []⟩ [] "7" [1]).2 (by decide)⟩

/-- C5 counterexample: a tick in which `Set` fails (the body converts to no
protobuf) still advances `lastEpoch` — the source discards `Set`'s error and
assigns `t.lastEpoch = epoch` unconditionally after the call, so the
snapshot is updated although nothing was successfully persisted. -/
theorem tickler_advances_despite_set_failure :
    (tickle codecNone ⟨0, []⟩ ⟨200, "5", 200, [1]⟩).1.lastEpoch = 5 ∧
      ((tickle codecNone ⟨0, []⟩ ⟨200, "5", 200, [1]⟩).2.map exceptIsOk) = some false := by
  decide

/-- C5 amended: the warming loop's snapshot is updated to the newly parsed
epoch exactly when the tick reaches the `Set` call — regardless of whether
`Set` succeeds; it only ever advances to a strictly greater value, and on
any tick abandoned before `Set` the snapshot and the store are unchanged. -/
theorem tickler_snapshot_amended {M : Type} (codec : Codec M) (st : TicklerState)
    (inp : TickInput) :
    ((tickle codec st inp).2 = none → (tickle codec st inp).1 = st) ∧
      (∀ r, (tickle codec st inp).2 = some r →
        st.lastEpoch < (tickle codec st inp).1.lastEpoch ∧
          parseUint64 inp.finalityEpoch = some (tickle codec st inp).1.lastEpoch) := by
  unfold tickle
  split
  · exact ⟨fun _ => rfl, fun r hr => by simp at hr⟩
  · split
    · exact ⟨fun _ => rfl, fun r hr => by simp at hr⟩
    · rename_i epoch hp
      split
      · exact ⟨fun _ => rfl, fun r hr => by simp at hr⟩
      · split
        · exact ⟨fun _ => rfl, fun r hr => by simp at hr⟩
        · split
          · exact ⟨fun _ => rfl, fun r hr => by simp at hr⟩
          · split
            · exact ⟨fun _ => rfl, fun r hr => by simp at hr⟩
            · refine ⟨fun hn => by simp at hn, fun r _ => ⟨?_, ?_⟩⟩
              · simp only []
                omega
              · simp [hp]

/-- Witness for `tickler_snapshot_amended` at a concrete tick that reaches
the `Set` call. -/
theorem tickler_snapshot_amended_witness :
    0 < (tickle codecNone ⟨0, []⟩ ⟨200, "5", 200, [1]⟩).1.lastEpoch ∧
      parseUint64 "5" = some (tickle codecNone ⟨0, []⟩ ⟨200, "5", 200, [1]⟩).1.lastEpoch :=
  (tickler_snapshot_amended codecNone ⟨0, []⟩ ⟨200, "5", 200, [1]⟩).2
    (Except.error "error converting json to protobuf for file 5.pb") rfl

/-- C6: `cachedQuery` serves the cached body and headers (a cache hit)
exactly when the cache `Get` reports a present result for a present, numeric
epoch parameter; an absent or non-numeric epoch, a cache error, and a cache
miss all pass the request through to the upstream, so a cache-layer error is
never a client-visible failure. -/
theorem cachedQuery_hit_iff (epochVar : Option String) (g : String → CacheOutcome) :
    (∀ b ct, cachedQuery epochVar g = RouteResponse.hit b ct ↔
      ∃ e, epochVar = some e ∧ (parseUint64 e).isSome = true ∧ g e = CacheOutcome.present b ct) ∧
      (∀ e m, epochVar = some e → g e = CacheOutcome.err m →
        cachedQuery epochVar g = RouteResponse.pass) := by
  cases epochVar with
  | none => simp [cachedQuery]
  | some e =>
    cases hp : parseUint64 e with
    | none => simp [cachedQuery, hp]
    | some k =>
      cases hg : g e with
      | err m => simp [cachedQuery, hp, hg]
      | absent => simp [cachedQuery, hp, hg]
      | present b ct =>
        constructor
        · simp [cachedQuery, hp, hg]
        · rintro e2 m he hm
          rcases he
          rw [hg] at hm
          cases hm

/-- Witness for `cachedQuery_hit_iff`: a cache error on a numeric epoch
resolves to pass-through. -/
theorem cachedQuery_hit_iff_witness :
    cachedQuery (some "3") (fun _ => CacheOutcome.err "cache offline") = RouteResponse.pass :=
  (cachedQuery_hit_iff (some "3") (fun _ => CacheOutcome.err "cache offline")).2
    "3" "cache offline" rfl rfl

/-- C7: content negotiation in `Get`.  When the record's bytes are obtained,
a request whose `Accept` header equals `application/protobuf` up to case
receives the raw stored bytes with the protobuf content type; any other
request receives the decoded-and-re-encoded JSON with the JSON content type
(when both conversion steps succeed). -/
theorem get_content_negotiation {M : Type} (codec : Codec M) (bad : String → Bool)
    (fs : FS) (c : LRU) (accept key : String) (data : Bytes)
    (h : (diskCache.warmingRead bad fs c key).1 = WarmResult.ok data) :
    (eqFold accept "application/protobuf" = true →
      diskCache.Get codec bad fs c accept key =
        (GetResult.found data "application/protobuf", fs,
          (diskCache.warmingRead bad fs c key).2)) ∧
      (∀ m out, eqFold accept "application/protobuf" = false →
        codec.pbUnmarshal data = some m → codec.jsonMarshal m = some out →
        diskCache.Get codec bad fs c accept key =
          (GetResult.found out "application/json", fs,
            (diskCache.warmingRead bad fs c key).2)) := by
  rcases hw : diskCache.warmingRead bad fs c key with ⟨r, c2⟩
  rw [hw] at h
  simp only [] at h
  subst h
  constructor
  · intro ha
    unfold diskCache.Get
    rw [hw]
    simp [ha]
  · intro m out ha hu hj
    unfold diskCache.Get
    rw [hw]
    simp [ha, hu, hj]

/-- Witness for `get_content_negotiation`: one store and warm accelerator,
probed with both `Accept` values. -/
theorem get_content_negotiation_witness :
    diskCache.Get codecJson (fun _ => false) [("5.pb", [1])] [] "application/protobuf" "5" =
      (GetResult.found [1] "application/protobuf", [("5.pb", [1])],
        (diskCache.warmingRead (fun _ => false) [("5.pb", [1])] [] "5").2) ∧
      diskCache.Get codecJson (fun _ => false) [("5.pb", [1])] [] "text/json" "5" =
        (GetResult.found [1] "application/json", [("5.pb", [1])],
          (diskCache.warmingRead (fun _ => false) [("5.pb", [1])] [] "5").2) :=
  ⟨(get_content_negotiation codecJson (fun _ => false) [("5.pb", [1])] []
      "application/protobuf" "5" [1] (by decide)).1 (by decide),
    (get_content_negotiation codecJson (fun _ => false) [("5.pb", [1])] []
      "text/json" "5" [1] (by decide)).2 () [1] (by decide) rfl rfl⟩

/-- Deleting the same file twice is the same as deleting it once. -/
theorem removeFile_idem (fs : FS) (n : String) :
    removeFile (removeFile fs n) n = removeFile fs n := by
  unfold removeFile
  induction fs with
  | nil => rfl
  | cons p t ih =>
    by_cases h : p.1 = n
    · simp [h, ih]
    · simp [h, ih]

/-- C8: corrupt records are purged.  A missing key yields an absent result
with no error and no change; a key whose file exists but cannot be read, or
whose bytes cannot be decoded (protobuf parse failure) or re-encoded (JSON
marshal failure) on the JSON path, yields an error — never a present or
absent result — and the record's file is deleted. -/
theorem get_corrupt_purged {M : Type} (codec : Codec M) (bad : String → Bool)
    (fs : FS) (c : LRU) (accept key : String) :
    (lruPeek c (diskCache.fileName key) = none →
      lookupFile fs (diskCache.fileName key) = none →
      diskCache.Get codec bad fs c accept key = (GetResult.absent, fs, c)) ∧
      (∀ b, lruPeek c (diskCache.fileName key) = none →
        lookupFile fs (diskCache.fileName key) = some b →
        bad (diskCache.fileName key) = true →
        diskCache.Get codec bad fs c accept key =
          (GetResult.error ("open " ++ diskCache.fileName key),
            removeFile fs (diskCache.fileName key), c)) ∧
      (∀ b, (diskCache.warmingRead bad fs c key).1 = WarmResult.ok b →
        eqFold accept "application/protobuf" = false →
        codec.pbUnmarshal b = none →
        diskCache.Get codec bad fs c accept key =
          (GetResult.error ("Error parsing protobuf from cached file " ++
              diskCache.fileName key),
            removeFile fs (diskCache.fileName key),
            (diskCache.warmingRead bad fs c key).2)) ∧
      (∀ b m, (diskCache.warmingRead bad fs c key).1 = WarmResult.ok b →
        eqFold accept "application/protobuf" = false →
        codec.pbUnmarshal b = some m → codec.jsonMarshal m = none →
        diskCache.Get codec bad fs c accept key =
          (GetResult.error ("Error marshaling json from cached file " ++
              diskCache.fileName key),
            removeFile fs (diskCache.fileName key),
            (diskCache.warmingRead bad fs c key).2)) := by
  refine ⟨?_, ?_, ?_, ?_⟩
  · intro h1 h2
    unfold diskCache.Get diskCache.warmingRead
    simp [h1, h2]
  · intro b h1 h2 h3
    unfold diskCache.Get diskCache.warmingRead
    simp [h1, h2, h3]
  · intro b hw hacc hdec
    rcases hp : diskCache.warmingRead bad fs c key with ⟨r, c2⟩
    rw [hp] at hw
    simp only [] at hw
    subst hw
    unfold diskCache.Get
    rw [hp]
    simp [hacc, hdec]
  · intro b m hw hacc hu hj
    rcases hp : diskCache.warmingRead bad fs c key with ⟨r, c2⟩
    rw [hp] at hw
    simp only [] at hw
    subst hw
    unfold diskCache.Get
    rw [hp]
    simp [hacc, hu, hj]

/-- Witness for `get_corrupt_purged`: each of the four branches at a
concrete store. -/
theorem get_corrupt_purged_witness :
    diskCache.Get codecNone (fun _ => false) [] [] "x" "9" = (GetResult.absent, [], []) ∧
      diskCache.Get codecNone (fun _ => true) [("9.pb", [1])] [] "x" "9" =
        (GetResult.error ("open " ++ diskCache.fileName "9"),
          removeFile [("9.pb", [1])] (diskCache.fileName "9"), []) ∧
      diskCache.Get codecNone (fun _ => false) [("9.pb", [1])] [] "x" "9" =
        (GetResult.error ("Error parsing protobuf from cached file " ++ diskCache.fileName "9"),
          removeFile [("9.pb", [1])] (diskCache.fileName "9"),
          (diskCache.warmingRead (fun _ => false) [("9.pb", [1])] [] "9").2) ∧
      diskCache.Get codecNoJson (fun _ => false) [("9.pb", [1])] [] "x" "9" =
        (GetResult.error ("Error marshaling json from cached file " ++ diskCache.fileName "9"),
          removeFile [("9.pb", [1])] (diskCache.fileName "9"),
          (diskCache.warmingRead (fun _ => false) [("9.pb", [1])] [] "9").2) :=
  ⟨(get_corrupt_purged codecNone (fun _ => false) [] [] "x" "9").1 rfl rfl,
    (get_corrupt_purged codecNone (fun _ => true) [("9.pb", [1])] [] "x" "9").2.1
      [1] rfl rfl rfl,
    (get_corrupt_purged codecNone (fun _ => false) [("9.pb", [1])] [] "x" "9").2.2.1
      [1] (by decide) (by decide) rfl,
    (get_corrupt_purged codecNoJson (fun _ => false) [("9.pb", [1])] [] "x" "9").2.2.2
      [1] () (by decide) (by decide) rfl rfl⟩

/-- C10: if a record's bytes sit in the warm accelerator and fail to decode
on the JSON path of `Get`, the disk file is deleted but the warm entry is
not evicted: the same `Get`, repeated against the store with the file gone,
is served the same warm bytes and returns the same decode error — never an
absent result — as long as the entry survives in the accelerator. -/
theorem stale_warm_entry_persists {M : Type} (codec : Codec M) (bad : String → Bool)
    (fs : FS) (c : LRU) (accept key : String) (b : Bytes)
    (hpeek : lruPeek c (diskCache.fileName key) = some b)
    (hacc : eqFold accept "application/protobuf" = false)
    (hdec : codec.pbUnmarshal b = none) :
    diskCache.Get codec bad fs c accept key =
      (GetResult.error ("Error parsing protobuf from cached file " ++ diskCache.fileName key),
        removeFile fs (diskCache.fileName key), c) ∧
      diskCache.Get codec bad (removeFile fs (diskCache.fileName key)) c accept key =
        (GetResult.error ("Error parsing protobuf from cached file " ++ diskCache.fileName key),
          removeFile fs (diskCache.fileName key), c) := by
  constructor
  · unfold diskCache.Get diskCache.warmingRead
    simp [hpeek, hacc, hdec]
  · unfold diskCache.Get diskCache.warmingRead
    simp [hpeek, hacc, hdec, removeFile_idem]

/-- Witness for `stale_warm_entry_persists` at a concrete accelerator. -/
theorem stale_warm_entry_persists_witness :
    diskCache.Get codecNone (fun _ => false) [("5.pb", [9])] [("5.pb", [9])] "x" "5" =
      (GetResult.error ("Error parsing protobuf from cached file " ++ diskCache.fileName "5"),
        removeFile [("5.pb", [9])] (diskCache.fileName "5"), [("5.pb", [9])]) ∧
      diskCache.Get codecNone (fun _ => false)
          (removeFile [("5.pb", [9])] (diskCache.fileName "5")) [("5.pb", [9])] "x" "5" =
        (GetResult.error ("Error parsing protobuf from cached file " ++ diskCache.fileName "5"),
          removeFile [("5.pb", [9])] (diskCache.fileName "5"), [("5.pb", [9])]) :=
  stale_warm_entry_persists codecNone (fun _ => false) [("5.pb", [9])] [("5.pb", [9])]
    "x" "5" [9] rfl (by decide) rfl

/-- The base-10 digit list of `n`, most significant digit first — the list
`Nat.toDigitsCore` produces once its fuel suffices. -/
def digitsAux (n : Nat) : List Char :=
  if h : n / 10 = 0 then [Nat.digitChar (n % 10)]
  else digitsAux (n / 10) ++ [Nat.digitChar (n % 10)]
decreasing_by
  have hn : n ≠ 0 := by
    intro h0
    subst h0
    simp at h
  exact Nat.div_lt_self (Nat.pos_of_ne_zero hn) (by omega)

/-- With fuel above `n`, `Nat.toDigitsCore` computes `digitsAux` and appends
the accumulator. -/
theorem toDigitsCore_eq_digitsAux :
    ∀ (fuel n : Nat) (ds : List Char), n < fuel →
      Nat.toDigitsCore 10 fuel n ds = digitsAux n ++ ds := by
  intro fuel
  induction fuel with
  | zero => intro n ds h; exact absurd h (Nat.not_lt_zero n)
  | succ f ih =>
    intro n ds h
    by_cases h0 : n / 10 = 0
    · unfold Nat.toDigitsCore
      rw [if_pos h0]
      unfold digitsAux
      rw [dif_pos h0]
      rfl
    · unfold Nat.toDigitsCore
      rw [if_neg h0]
      rw [ih (n / 10) (Nat.digitChar (n % 10) :: ds) (by omega)]
      conv_rhs => rw [digitsAux]
      rw [dif_neg h0, List.append_assoc]
      rfl

/-- `Nat.repr` is the string of `digitsAux`. -/
theorem nat_repr_eq_digitsAux (n : Nat) : Nat.repr n = (digitsAux n).asString := by
  unfold Nat.repr Nat.toDigits
  rw [toDigitsCore_eq_digitsAux (n + 1) n [] (Nat.lt_succ_self n), List.append_nil]

/-- `digitVal` inverts `Nat.digitChar` on decimal digits. -/
theorem digitVal_digitChar (d : Nat) (h : d < 10) : digitVal (Nat.digitChar d) = d := by
  interval_cases d <;> decide

/-- Folding the decimal evaluation step over `digitsAux n` recovers `n`. -/
theorem foldl_digitsAux (n : Nat) :
    ∀ a : Nat, (digitsAux n).foldl (fun a c => a * 10 + digitVal c) a
      = a * 10 ^ (digitsAux n).length + n := by
  induction n using Nat.strong_induction_on with
  | _ n ih =>
    intro a
    by_cases h0 : n / 10 = 0
    · unfold digitsAux
      rw [dif_pos h0]
      simp only [List.foldl_cons, List.foldl_nil, List.length_cons, List.length_nil]
      rw [digitVal_digitChar (n % 10) (Nat.mod_lt n (by omega))]
      rw [pow_one]
      omega
    · unfold digitsAux
      rw [dif_neg h0]
      rw [List.foldl_append]
      have hlt : n / 10 < n := Nat.div_lt_self (by omega) (by omega)
      rw [ih (n / 10) hlt a]
      simp only [List.foldl_cons, List.foldl_nil, List.length_append, List.length_cons,
        List.length_nil]
      rw [digitVal_digitChar (n % 10) (Nat.mod_lt n (by omega))]
      rw [pow_succ, ← mul_assoc]
      generalize a * 10 ^ (digitsAux (n / 10)).length = y
      omega

/-- `digitsAux` is injective. -/
theorem digitsAux_inj {m n : Nat} (h : digitsAux m = digitsAux n) : m = n := by
  have hm := foldl_digitsAux m 0
  have hn := foldl_digitsAux n 0
  rw [h] at hm
  simp only [Nat.zero_mul, Nat.zero_add] at hm hn
  omega

/-- Lean's decimal printer (the model of `fmt.Sprint` on a `uint64`) is
injective. -/
theorem nat_repr_inj {m n : Nat} (h : Nat.repr m = Nat.repr n) : m = n := by
  rw [nat_repr_eq_digitsAux, nat_repr_eq_digitsAux] at h
  apply digitsAux_inj
  have hd := congrArg String.data h
  simpa [List.asString] using hd

/-- `diskCache.fileName` is injective. -/
theorem fileName_inj {a b : String} (h : diskCache.fileName a = diskCache.fileName b) :
    a = b := by
  unfold diskCache.fileName at h
  have hd := congrArg String.data h
  simp only [String.data_append] at hd
  have hl : a.data.length = b.data.length := by
    have hlen := congrArg List.length hd
    simp only [List.length_append] at hlen
    omega
  exact String.ext (List.append_inj hd hl).1

/-- The keys of the warm accelerator are pairwise distinct — the invariant
the LRU library maintains. -/
def lruKeysNodup (c : LRU) : Prop := (c.map Prod.fst).Nodup

/-- A warm-accelerator miss means no entry carries the key. -/
theorem lruPeek_eq_none_iff {c : LRU} {k : String} :
    lruPeek c k = none ↔ ∀ p ∈ c, p.1 ≠ k := by
  unfold lruPeek
  simp [List.find?_eq_none]

/-- Adding a missed key filters nothing. -/
theorem filter_ne_of_peek_none {c : LRU} {k : String} (h : lruPeek c k = none) :
    c.filter (fun p => p.1 != k) = c := by
  rw [List.filter_eq_self]
  intro p hp
  simpa using lruPeek_eq_none_iff.mp h p hp

/-- Membership in a prefix is monotone in the prefix length. -/
theorem mem_take_mono {α : Type} {l : List α} {p : α} {m n : Nat} (h : m ≤ n)
    (hm : p ∈ l.take m) : p ∈ l.take n := by
  have ht : l.take m = (l.take n).take m := by
    rw [List.take_take, Nat.min_eq_left h]
  rw [ht] at hm
  exact List.take_subset _ _ hm

/-- An entry among the first `m` of the accelerator stays among the first
`m + 1` after an `Add` of a missed key, as long as `m + 1` is within the
capacity: the new entry goes in front, and eviction only removes the last
entry of a list longer than the capacity. -/
theorem mem_take_lruAdd {c : LRU} {k : String} {v : Bytes} {p : String × Bytes} {m : Nat}
    (h : lruPeek c k = none) (hm : p ∈ c.take m) (hcap : m + 1 ≤ 256) :
    p ∈ (lruAdd c k v).take (m + 1) := by
  unfold lruAdd
  rw [filter_ne_of_peek_none h]
  by_cases hlen : ((k, v) :: c).length > 256
  · rw [if_pos hlen, List.dropLast_eq_take, List.take_take]
    have hmin : min (m + 1) (((k, v) :: c).length - 1) = m + 1 := by
      simp only [List.length_cons] at hlen ⊢
      omega
    rw [hmin, List.take_succ_cons]
    exact List.mem_cons_of_mem _ hm
  · rw [if_neg hlen, List.take_succ_cons]
    exact List.mem_cons_of_mem _ hm

/-- A freshly added missed key is the accelerator's first entry. -/
theorem mem_take_one_lruAdd {c : LRU} {k : String} {v : Bytes}
    (h : lruPeek c k = none) : (k, v) ∈ (lruAdd c k v).take 1 := by
  unfold lruAdd
  rw [filter_ne_of_peek_none h]
  by_cases hlen : ((k, v) :: c).length > 256
  · rw [if_pos hlen, List.dropLast_eq_take, List.take_take]
    have hmin : min 1 (((k, v) :: c).length - 1) = 1 := by
      simp only [List.length_cons] at hlen ⊢
      omega
    rw [hmin, List.take_succ_cons]
    simp
  · rw [if_neg hlen, List.take_succ_cons]
    simp

/-- Entries of the accelerator after an `Add` are the new entry or old
entries. -/
theorem mem_of_mem_lruAdd {c : LRU} {k : String} {v : Bytes} {p : String × Bytes}
    (hm : p ∈ lruAdd c k v) : p = (k, v) ∨ p ∈ c := by
  unfold lruAdd at hm
  split at hm
  · have hm2 := (List.dropLast_sublist _).subset hm
    rcases List.mem_cons.mp hm2 with h1 | h2
    · exact Or.inl h1
    · exact Or.inr (List.mem_filter.mp h2).1
  · rcases List.mem_cons.mp hm with h1 | h2
    · exact Or.inl h1
    · exact Or.inr (List.mem_filter.mp h2).1

/-- A key missing from the accelerator is still missing after an `Add` of a
different key. -/
theorem lruPeek_none_lruAdd {c : LRU} {k k2 : String} {v : Bytes} (hne : k2 ≠ k)
    (h : lruPeek c k = none) : lruPeek (lruAdd c k2 v) k = none := by
  rw [lruPeek_eq_none_iff] at h ⊢
  intro p hp
  rcases mem_of_mem_lruAdd hp with rfl | hm
  · exact hne
  · exact h p hm

/-- `Add` preserves distinctness of the accelerator's keys. -/
theorem lruKeysNodup_lruAdd {c : LRU} {k : String} {v : Bytes} (h : lruKeysNodup c) :
    lruKeysNodup (lruAdd c k v) := by
  unfold lruKeysNodup at h ⊢
  have hfil : ((c.filter (fun p => p.1 != k)).map Prod.fst).Nodup :=
    List.Nodup.sublist (List.Sublist.map _ (List.filter_sublist _)) h
  have hnot : k ∉ (c.filter (fun p => p.1 != k)).map Prod.fst := by
    intro hk
    rcases List.mem_map.mp hk with ⟨p, hp, hpk⟩
    have := (List.mem_filter.mp hp).2
    rw [hpk] at this
    simp at this
  have hcons : (((k, v) :: c.filter (fun p => p.1 != k)).map Prod.fst).Nodup := by
    rw [List.map_cons]
    exact List.nodup_cons.mpr ⟨hnot, hfil⟩
  unfold lruAdd
  split
  · exact List.Nodup.sublist (List.Sublist.map _ (List.dropLast_sublist _)) hcons
  · exact hcons

/-- With distinct keys, membership determines the peeked value. -/
theorem lruPeek_of_mem_nodup {c : LRU} {k : String} {v : Bytes}
    (hn : lruKeysNodup c) (hm : (k, v) ∈ c) : lruPeek c k = some v := by
  induction c with
  | nil => cases hm
  | cons q t ih =>
    unfold lruKeysNodup at hn
    rw [List.map_cons, List.nodup_cons] at hn
    by_cases hq : q.1 = k
    · have hqe : q = (k, v) := by
        rcases List.mem_cons.mp hm with h1 | h2
        · exact h1.symm
        · exfalso
          apply hn.1
          rw [hq]
          exact List.mem_map.mpr ⟨(k, v), h2, rfl⟩
      unfold lruPeek
      rw [List.find?_cons_of_pos _ (by simp [hq])]
      rw [hqe]
      rfl
    · have hm2 : (k, v) ∈ t := by
        rcases List.mem_cons.mp hm with h1 | h2
        · exact absurd (congrArg Prod.fst h1.symm) hq
        · exact h2
      unfold lruPeek
      rw [List.find?_cons_of_neg _ (by simp [hq])]
      exact ih hn.2 hm2

/-- A populate-only read either leaves the accelerator unchanged or adds the
missed key's bytes from disk. -/
theorem warmCacheOnly_cases (bad : String → Bool) (fs : FS) (c : LRU) (key : String) :
    warmCacheOnly bad fs c key = c ∨
      (lruPeek c (diskCache.fileName key) = none ∧
        ∃ data, lookupFile fs (diskCache.fileName key) = some data ∧
          warmCacheOnly bad fs c key = lruAdd c (diskCache.fileName key) data) := by
  unfold warmCacheOnly
  by_cases h1 : (lruPeek c (diskCache.fileName key)).isSome
  · rw [if_pos h1]
    exact Or.inl rfl
  · rw [if_neg h1]
    have h1n : lruPeek c (diskCache.fileName key) = none :=
      Option.not_isSome_iff_eq_none.mp h1
    rcases h2 : lookupFile fs (diskCache.fileName key) with _ | data
    · exact Or.inl rfl
    · dsimp only
      by_cases h3 : bad (diskCache.fileName key)
      · rw [if_pos h3]
        exact Or.inl rfl
      · rw [if_neg h3]
        exact Or.inr ⟨h1n, data, rfl, rfl⟩

/-- A key missing from the accelerator and different from the probed key is
still missing after a populate-only read. -/
theorem warmCacheOnly_peek_none {bad : String → Bool} {fs : FS} {c : LRU} {key : String}
    {fn : String} (hne : diskCache.fileName key ≠ fn) (h : lruPeek c fn = none) :
    lruPeek (warmCacheOnly bad fs c key) fn = none := by
  rcases warmCacheOnly_cases bad fs c key with he | ⟨hp, data, hd, he⟩
  · rw [he]; exact h
  · rw [he]; exact lruPeek_none_lruAdd hne h

/-- An entry among the first `m` survives one populate-only read among the
first `m + 1`, within capacity. -/
theorem warmCacheOnly_mem_take {bad : String → Bool} {fs : FS} {c : LRU} {key : String}
    {p : String × Bytes} {m : Nat} (hm : p ∈ c.take m) (hcap : m + 1 ≤ 256) :
    p ∈ (warmCacheOnly bad fs c key).take (m + 1) := by
  rcases warmCacheOnly_cases bad fs c key with he | ⟨hp, data, hd, he⟩
  · rw [he]; exact mem_take_mono (by omega) hm
  · rw [he]; exact mem_take_lruAdd hp hm hcap

/-- Populate-only reads preserve key distinctness. -/
theorem warmCacheOnly_nodup {bad : String → Bool} {fs : FS} {c : LRU} {key : String}
    (h : lruKeysNodup c) : lruKeysNodup (warmCacheOnly bad fs c key) := by
  rcases warmCacheOnly_cases bad fs c key with he | ⟨hp, data, hd, he⟩
  · rw [he]; exact h
  · rw [he]; exact lruKeysNodup_lruAdd h

/-- A key missing from the accelerator whose file name none of the probed
keys share is still missing after a sequence of populate-only reads. -/
theorem fold_warm_peek_none {bad : String → Bool} {fs : FS} {fn : String} :
    ∀ (ks : List String) (c : LRU), (∀ k ∈ ks, diskCache.fileName k ≠ fn) →
      lruPeek c fn = none →
      lruPeek (ks.foldl (fun acc k => warmCacheOnly bad fs acc k) c) fn = none := by
  intro ks
  induction ks with
  | nil => intro c _ h; exact h
  | cons k t ih =>
    intro c hks h
    rw [List.foldl_cons]
    exact ih _ (fun k2 hk2 => hks k2 (List.mem_cons_of_mem _ hk2))
      (warmCacheOnly_peek_none (hks k (List.mem_cons_self _ _)) h)

/-- An entry among the first `m` survives a sequence of populate-only reads,
as long as `m` plus the number of reads stays within capacity. -/
theorem fold_warm_mem_take (bad : String → Bool) (fs : FS) {p : String × Bytes} :
    ∀ (ks : List String) (c : LRU) (m : Nat), p ∈ c.take m → m + ks.length ≤ 256 →
      p ∈ (ks.foldl (fun acc k => warmCacheOnly bad fs acc k) c).take (m + ks.length) := by
  intro ks
  induction ks with
  | nil => intro c m hm _; simpa using hm
  | cons k t ih =>
    intro c m hm hcap
    rw [List.foldl_cons]
    have hcap2 : m + 1 ≤ 256 := by
      simp only [List.length_cons] at hcap
      omega
    have h1 : p ∈ (warmCacheOnly bad fs c k).take (m + 1) :=
      warmCacheOnly_mem_take hm hcap2
    have h2 := ih (warmCacheOnly bad fs c k) (m + 1) h1 (by
      simp only [List.length_cons] at hcap
      omega)
    have he : m + (k :: t).length = m + 1 + t.length := by
      simp only [List.length_cons]
      omega
    rw [he]
    exact h2

/-- Sequences of populate-only reads preserve key distinctness. -/
theorem fold_warm_nodup {bad : String → Bool} {fs : FS} :
    ∀ (ks : List String) (c : LRU), lruKeysNodup c →
      lruKeysNodup (ks.foldl (fun acc k => warmCacheOnly bad fs acc k) c) := by
  intro ks
  induction ks with
  | nil => intro c h; exact h
  | cons k t ih =>
    intro c h
    rw [List.foldl_cons]
    exact ih _ (warmCacheOnly_nodup h)

/-- Below the `uint64` wraparound the look-ahead keys are the decimal
representations of the 32 successors. -/
theorem lookAheadKeys_of_bound {start : Nat} (hb : start + 32 < 18446744073709551616) :
    lookAheadKeys start = (List.range 32).map (fun j => Nat.repr (start + j + 1)) := by
  unfold lookAheadKeys
  apply List.map_congr_left
  intro j hj
  rw [List.mem_range] at hj
  congr 1
  apply Nat.mod_eq_of_lt
  omega

/-- On a warm-accelerator miss with an existing readable file, a
populate-only read is exactly an `Add` of the file's bytes. -/
theorem warmCacheOnly_eq_add {bad : String → Bool} {fs : FS} {c : LRU} {key : String}
    {data : Bytes}
    (hp : lruPeek c (diskCache.fileName key) = none)
    (hd : lookupFile fs (diskCache.fileName key) = some data)
    (hb : bad (diskCache.fileName key) = false) :
    warmCacheOnly bad fs c key = lruAdd c (diskCache.fileName key) data := by
  unfold warmCacheOnly
  dsimp only
  rw [hp]
  dsimp only [Option.isSome_none]
  rw [if_neg (by simp)]
  rw [hd]
  dsimp only
  rw [hb]
  rw [if_neg (by simp)]

/-- C9: bounded look-ahead.  A `Get`-driven `warmingRead` for a numeric key
`start` that is served from disk (warm-accelerator miss, readable file)
returns that record's bytes and additionally runs the populate-only
look-ahead; afterwards every key among the 32 successors of `start` whose
record exists on disk, is readable, and was not already in the warm
accelerator has its raw bytes present in the accelerator.  The populate-only
reads affect only the accelerator — the caller receives exactly the probed
record's bytes — and, being the `cacheOnly` branch, install no further
look-ahead. -/
theorem warmingRead_look_ahead (bad : String → Bool) (fs : FS) (c : LRU) (key : String)
    (start : Nat) (data : Bytes)
    (hparse : parseUint64 key = some start)
    (hbound : start + 32 < 18446744073709551616)
    (hlru : lruPeek c (diskCache.fileName key) = none)
    (hdisk : lookupFile fs (diskCache.fileName key) = some data)
    (hbad : bad (diskCache.fileName key) = false)
    (hnodup : lruKeysNodup c) :
    diskCache.warmingRead bad fs c key = (WarmResult.ok data, lookAhead bad fs c key) ∧
      (∀ i b, start + 1 ≤ i → i ≤ start + 32 →
        lruPeek c (diskCache.fileName (Nat.repr i)) = none →
        lookupFile fs (diskCache.fileName (Nat.repr i)) = some b →
        bad (diskCache.fileName (Nat.repr i)) = false →
        lruPeek (lookAhead bad fs c key) (diskCache.fileName (Nat.repr i)) = some b) := by
  constructor
  · unfold diskCache.warmingRead
    simp [hlru, hdisk, hbad]
  · intro i b hge hle hlrui hdiski hbadi
    unfold lookAhead
    rw [hparse]
    dsimp only
    rw [lookAheadKeys_of_bound hbound]
    have h32 : (32 : Nat) = (i - start - 1) + 1 + (31 - (i - start - 1)) := by omega
    rw [h32, List.range_add, List.range_succ, List.map_append, List.map_append,
      List.foldl_append, List.foldl_append]
    have hpeek1 : lruPeek
        (((List.range (i - start - 1)).map (fun j => Nat.repr (start + j + 1))).foldl
          (fun acc k => warmCacheOnly bad fs acc k) c)
        (diskCache.fileName (Nat.repr i)) = none := by
      apply fold_warm_peek_none
      · intro k hk
        rcases List.mem_map.mp hk with ⟨j, hj, rfl⟩
        rw [List.mem_range] at hj
        intro hceq
        have := nat_repr_inj (fileName_inj hceq)
        omega
      · exact hlrui
    have hft : Nat.repr (start + (i - start - 1) + 1) = Nat.repr i := by
      congr 1
      omega
    rw [List.map_cons, List.map_nil, List.foldl_cons, List.foldl_nil, hft]
    have hstep : warmCacheOnly bad fs
        (((List.range (i - start - 1)).map (fun j => Nat.repr (start + j + 1))).foldl
          (fun acc k => warmCacheOnly bad fs acc k) c) (Nat.repr i) =
        lruAdd
          (((List.range (i - start - 1)).map (fun j => Nat.repr (start + j + 1))).foldl
            (fun acc k => warmCacheOnly bad fs acc k) c)
          (diskCache.fileName (Nat.repr i)) b :=
      warmCacheOnly_eq_add hpeek1 hdiski hbadi
    rw [hstep]
    have hmem1 : (diskCache.fileName (Nat.repr i), b) ∈
        (lruAdd
          (((List.range (i - start - 1)).map (fun j => Nat.repr (start + j + 1))).foldl
            (fun acc k => warmCacheOnly bad fs acc k) c)
          (diskCache.fileName (Nat.repr i)) b).take 1 :=
      mem_take_one_lruAdd hpeek1
    have hlen3 : (((List.range (31 - (i - start - 1))).map
        (fun x => (i - start - 1) + 1 + x)).map (fun j => Nat.repr (start + j + 1))).length
        ≤ 255 := by
      simp only [List.length_map, List.length_range]
      omega
    have hmemf := fold_warm_mem_take bad fs
      (((List.range (31 - (i - start - 1))).map (fun x => (i - start - 1) + 1 + x)).map
        (fun j => Nat.repr (start + j + 1)))
      (lruAdd
        (((List.range (i - start - 1)).map (fun j => Nat.repr (start + j + 1))).foldl
          (fun acc k => warmCacheOnly bad fs acc k) c)
        (diskCache.fileName (Nat.repr i)) b)
      1 hmem1 (by simp only [List.length_map, List.length_range]; omega)
    have hnodupf : lruKeysNodup
        ((((List.range (31 - (i - start - 1))).map (fun x => (i - start - 1) + 1 + x)).map
          (fun j => Nat.repr (start + j + 1))).foldl
          (fun acc k => warmCacheOnly bad fs acc k)
          (lruAdd
            (((List.range (i - start - 1)).map (fun j => Nat.repr (start + j + 1))).foldl
              (fun acc k => warmCacheOnly bad fs acc k) c)
            (diskCache.fileName (Nat.repr i)) b)) := by
      apply fold_warm_nodup
      apply lruKeysNodup_lruAdd
      exact fold_warm_nodup _ _ hnodup
    exact lruPeek_of_mem_nodup hnodupf (List.take_subset _ _ hmemf)

/-- Witness for `warmingRead_look_ahead`: a disk read of key 5 populates the
accelerator with the record of key 6. -/
theorem warmingRead_look_ahead_witness :
    diskCache.warmingRead (fun _ => false) [("5.pb", [1]), ("6.pb", [2])] [] "5" =
      (WarmResult.ok [1], lookAhead (fun _ => false) [("5.pb", [1]), ("6.pb", [2])] [] "5") ∧
      lruPeek (lookAhead (fun _ => false) [("5.pb", [1]), ("6.pb", [2])] [] "5")
        (diskCache.fileName (Nat.repr 6)) = some [2] :=
  ⟨(warmingRead_look_ahead (fun _ => false) [("5.pb", [1]), ("6.pb", [2])] [] "5" 5 [1]
      (by decide) (by decide) rfl (by decide) rfl (by simp [lruKeysNodup])).1,
    (warmingRead_look_ahead (fun _ => false) [("5.pb", [1]), ("6.pb", [2])] [] "5" 5 [1]
      (by decide) (by decide) rfl (by decide) rfl (by simp [lruKeysNodup])).2 6 [2]
      (by decide) (by decide) rfl (by decide) rfl⟩
